import Mathlib

/-!
Shallow embedding of `src/option_calc.py` (AustinCStone/stonks).

The script has two parts:

* `black_scholes` — the closed-form Black-Scholes premium (lines 37-53),
  using `scipy.stats.norm.cdf`, idealised here as the exact standard
  normal cumulative distribution function `normCdf` (an integral of the
  standard normal density `normPdf`).

* `main` — a sweep over 1000 candidate exercise prices drawn with
  `np.linspace(0.1*S, 3*S, 1000)` (lines 56-90), computing for each a
  profit ratio, tracking the running maximum (strict improvement only),
  and collecting the candidates with `profit > -1` together with their
  profits scaled by 100 for the plot.

Real numbers model Python floats; `max_profit = -np.inf` together with
`best_exercise_price = None` is modelled by an `Option (ℝ × ℝ)` running
best (every real profit exceeds `-inf`, so the first candidate always
installs itself, exactly as in the code).  Real division by zero in Lean
yields `0`; the only place this matters (a candidate whose premium is
exactly zero, where numpy would produce `±inf`/`nan`) is discussed at the
theorems concerned with that degeneracy.
-/

open Real MeasureTheory Set

namespace Stonks

noncomputable section

/-- Density of the standard normal distribution. -/
def normPdf (z : ℝ) : ℝ := (Real.sqrt (2 * π))⁻¹ * Real.exp (-(z ^ 2) / 2)

/-- Cumulative distribution function of the standard normal distribution,
idealising `scipy.stats.norm.cdf`. -/
def normCdf (x : ℝ) : ℝ := ∫ z in Iic x, normPdf z

/-- Transcription of `black_scholes` from `src/option_calc.py` (lines 37-53). -/
def black_scholes (current_price exercise_price risk_free_interest_rate
    days_to_expiration volatility : ℝ) (call : Bool) : ℝ :=
  let s := current_price
  let x := exercise_price
  let r := risk_free_interest_rate
  let t := days_to_expiration / 365
  let v := volatility
  let d1 := (Real.log (s / x) + (r + v ^ 2 / 2) * t) / (v * Real.sqrt t)
  let d2 := (Real.log (s / x) + (r - v ^ 2 / 2) * t) / (v * Real.sqrt t)
  if call then s * normCdf d1 - x * Real.exp (-r * t) * normCdf d2
  else x * Real.exp (-r * t) * normCdf (-d2) - s * normCdf (-d1)

/-- Transcription of `np.linspace lo hi num`: `num` evenly spaced samples
from `lo` to `hi`, endpoints included. -/
def linspace (lo hi : ℝ) (num : ℕ) : List ℝ :=
  (List.range num).map fun i : ℕ => lo + (hi - lo) * (i : ℝ) / ((num : ℝ) - 1)

/-- The candidate exercise prices scanned by `main` (lines 57-65):
`np.linspace(current_price * .1, current_price * 3., 1000)`. -/
def exercisePrices (current_price : ℝ) : List ℝ :=
  linspace (current_price * 0.1) (current_price * 3) 1000

/-- The option-type flag computed by `main` (line 62):
`call = FLAGS.expected_price_movement > 0.`. -/
def callFlag (expected_price_movement : ℝ) : Bool :=
  if 0 < expected_price_movement then true else false

/-- The per-candidate profit computation of `main`'s loop body
(lines 66-77), abstracted over the premium function so that degenerate
premiums can be examined: `profit = (future - x) - price` for a call,
`(x - future) - price` for a put, then `profit /= price`. -/
def profitOf (priceFn : ℝ → ℝ) (future_underlying_price : ℝ) (call : Bool)
    (exercise_price : ℝ) : ℝ :=
  let p := priceFn exercise_price
  if call then ((future_underlying_price - exercise_price) - p) / p
  else ((exercise_price - future_underlying_price) - p) / p

/-- The mutable state of `main`'s loop: the running best
`(best_exercise_price, max_profit)` (with `None` / `-np.inf` modelled as
`none`), and the two lists collected for plotting. -/
structure SweepResult where
  best : Option (ℝ × ℝ)
  all_exercise_prices : List ℝ
  all_profits : List ℝ

/-- One iteration of `main`'s loop (lines 65-84) for a candidate
`exercise_price`, given the profit function of the loop body. -/
def sweepStep (profitFn : ℝ → ℝ) (st : SweepResult) (exercise_price : ℝ) :
    SweepResult :=
  let profit := profitFn exercise_price
  { best :=
      match st.best with
      | none => some (exercise_price, profit)
      | some (bx, bp) =>
          if bp < profit then some (exercise_price, profit) else some (bx, bp)
    all_exercise_prices :=
      if -1 < profit then st.all_exercise_prices ++ [exercise_price]
      else st.all_exercise_prices
    all_profits :=
      if -1 < profit then st.all_profits ++ [profit * 100]
      else st.all_profits }

/-- The full sweep of `main` over a list of candidates. -/
def sweep (profitFn : ℝ → ℝ) (candidates : List ℝ) : SweepResult :=
  candidates.foldl (sweepStep profitFn) ⟨none, [], []⟩

/-- The profit function `main` actually uses: premium from
`black_scholes` at the flag-derived option type, future price
`current_price * (1 + expected_price_movement)` (line 71). -/
def mainProfit (current_price risk_free_interest_rate days_to_expiration
    volatility expected_price_movement : ℝ) : ℝ → ℝ :=
  profitOf
    (fun x => black_scholes current_price x risk_free_interest_rate
      days_to_expiration volatility (callFlag expected_price_movement))
    (current_price * (1 + expected_price_movement))
    (callFlag expected_price_movement)

/-- The whole computation of `main` (lines 56-84): the sweep over the
1000 evenly spaced candidates with the Black-Scholes profit function. -/
def mainSweep (current_price risk_free_interest_rate days_to_expiration
    volatility expected_price_movement : ℝ) : SweepResult :=
  sweep
    (mainProfit current_price risk_free_interest_rate days_to_expiration
      volatility expected_price_movement)
    (exercisePrices current_price)

/-- Modelled from the spec §4.1 (the algorithm as written in the claim):
`t = days / 365`, `d1 = [ln(S/X) + (r + v²/2)·t] / (v·√t)`,
`d2 = [ln(S/X) + (r − v²/2)·t] / (v·√t)`, premium
`S·Φ(d1) − X·e^(−r·t)·Φ(d2)` for a call and
`X·e^(−r·t)·Φ(−d2) − S·Φ(−d1)` for a put. -/
def spec_price (S X r days v : ℝ) (is_call : Bool) : ℝ :=
  let t := days / 365
  let d1 := (Real.log (S / X) + (r + v ^ 2 / 2) * t) / (v * Real.sqrt t)
  let d2 := (Real.log (S / X) + (r - v ^ 2 / 2) * t) / (v * Real.sqrt t)
  if is_call then S * normCdf d1 - X * Real.exp (-(r * t)) * normCdf d2
  else X * Real.exp (-(r * t)) * normCdf (-d2) - S * normCdf (-d1)

/-- Modelled from the spec §4.2 (the profit metric as written in the
claim): option type call exactly when the expected movement is positive,
`future_price = S × (1 + movement)`, raw profit
`(future_price − X) − premium` for a call and
`(X − future_price) − premium` for a put, divided by the premium. -/
def spec_profit_metric (S r days v movement X : ℝ) : ℝ :=
  let future_price := S * (1 + movement)
  let is_call : Bool := if 0 < movement then true else false
  let premium := black_scholes S X r days v is_call
  let raw_profit :=
    if is_call then (future_price - X) - premium
    else (X - future_price) - premium
  raw_profit / premium

/-- The running-best update of the loop in isolation (lines 78-80). -/
def bestStep (profitFn : ℝ → ℝ) (b : Option (ℝ × ℝ)) (x : ℝ) : Option (ℝ × ℝ) :=
  match b with
  | none => some (x, profitFn x)
  | some (bx, bp) => if bp < profitFn x then some (x, profitFn x) else some (bx, bp)

/-- The scaled time `a = v·√t` appearing in the denominator of `d1`, `d2`. -/
def bsA (v days : ℝ) : ℝ := v * Real.sqrt (days / 365)

/-- The log-moneyness with drift, `L = ln(S/X) + r·t`.  With `a = v·√t`
one has `d1 = L/a + a/2` and `d2 = L/a − a/2`. -/
def bsL (S X r days : ℝ) : ℝ := Real.log (S / X) + r * (days / 365)

/-- The integrand whose integral over `Iic (L/a + a/2)` is the
Black-Scholes call value divided by the spot: `φ(w) − e^(−L)·φ(w − a)`. -/
def bsKernel (a L : ℝ) (w : ℝ) : ℝ := normPdf w - Real.exp (-L) * normPdf (w - a)

/-! ### Elementary facts about the candidate grid -/

theorem linspace_length (lo hi : ℝ) (num : ℕ) : (linspace lo hi num).length = num := by
  simp only [linspace, List.length_map, List.length_range]

theorem linspace_get (lo hi : ℝ) (num i : ℕ) (h : i < (linspace lo hi num).length) :
    (linspace lo hi num)[i] = lo + (hi - lo) * i / ((num : ℝ) - 1) := by
  simp only [linspace, List.getElem_map, List.getElem_range]

theorem mem_linspace {lo hi : ℝ} {num : ℕ} {c : ℝ} :
    c ∈ linspace lo hi num ↔ ∃ i < num, c = lo + (hi - lo) * i / ((num : ℝ) - 1) := by
  simp only [linspace, List.mem_map, List.mem_range]
  constructor
  · rintro ⟨i, hi, rfl⟩; exact ⟨i, hi, rfl⟩
  · rintro ⟨i, hi, rfl⟩; exact ⟨i, hi, rfl⟩

theorem exercisePrices_bounds {s c : ℝ} (hs : 0 ≤ s) (hc : c ∈ exercisePrices s) :
    s * 0.1 ≤ c ∧ c ≤ s * 3 := by
  rcases mem_linspace.mp hc with ⟨i, hi, rfl⟩
  have hstep : (0 : ℝ) ≤ s * 3 - s * 0.1 := by nlinarith
  have hcast : ((1000 : ℕ) : ℝ) - 1 = 999 := by norm_num
  rw [hcast]
  have hi999 : (i : ℝ) ≤ 999 := by
    have h1 : i ≤ 999 := Nat.lt_succ_iff.mp hi
    exact_mod_cast h1
  have hnn : (0 : ℝ) ≤ (i : ℝ) := Nat.cast_nonneg i
  constructor
  · have : (0 : ℝ) ≤ (s * 3 - s * 0.1) * i / 999 := by positivity
    linarith
  · have h1 : (s * 3 - s * 0.1) * i / 999 ≤ s * 3 - s * 0.1 := by
      rw [div_le_iff₀ (by norm_num : (0 : ℝ) < 999)]
      nlinarith
    linarith

theorem exercisePrices_pos {s c : ℝ} (hs : 0 < s) (hc : c ∈ exercisePrices s) : 0 < c := by
  have h := (exercisePrices_bounds hs.le hc).1
  nlinarith

/-! ### Claim theorems: pricing formula, profit metric, candidate grid -/

/-- C1: for positive spot, strike, volatility and days, `black_scholes`
returns exactly the Black-Scholes formula stated in the spec: with
`t = days/365`, `d1 = (ln(S/X) + (r + v²/2)·t)/(v·√t)`,
`d2 = (ln(S/X) + (r − v²/2)·t)/(v·√t)`, the premium is
`S·Φ(d1) − X·e^(−r·t)·Φ(d2)` for a call and
`X·e^(−r·t)·Φ(−d2) − S·Φ(−d1)` for a put, `Φ` being the standard normal
cumulative distribution function. -/
theorem C1_pricing_formula (S X r days v : ℝ) (call : Bool)
    (hS : 0 < S) (hX : 0 < X) (hv : 0 < v) (hd : 0 < days) :
    black_scholes S X r days v call = spec_price S X r days v call := by
  simp only [black_scholes, spec_price, neg_mul]

theorem C1_pricing_formula_witness :
    (0 : ℝ) < 280 ∧ (0 : ℝ) < 300 ∧ (0 : ℝ) < 2 / 5 ∧ (0 : ℝ) < 180 ∧
      black_scholes 280 300 (63 / 10000) 180 (2 / 5) true =
        spec_price 280 300 (63 / 10000) 180 (2 / 5) true :=
  ⟨by norm_num, by norm_num, by norm_num, by norm_num,
    C1_pricing_formula 280 300 (63 / 10000) 180 (2 / 5) true
      (by norm_num) (by norm_num) (by norm_num) (by norm_num)⟩

/-- C5: for every candidate strike the optimizer prices a call exactly
when the expected movement is positive (else a put), assumes the future
price `S × (1 + movement)`, takes raw profit `(future − X) − premium` for
a call and `(X − future) − premium` for a put, and divides the raw profit
by that candidate's premium. -/
theorem C5_profit_metric (S r days v movement X : ℝ) :
    (callFlag movement = true ↔ 0 < movement) ∧
      mainProfit S r days v movement X = spec_profit_metric S r days v movement X := by
  constructor
  · simp only [callFlag]
    split <;> simp_all
  · simp only [mainProfit, profitOf, spec_profit_metric, callFlag]
    split <;> simp

/-- C6: the optimizer evaluates exactly 1000 candidate strikes, drawn at
evenly spaced points spanning the closed interval `[0.1·S, 3·S]` (the
`i`-th candidate is `0.1·S + (3·S − 0.1·S)·i/999`), and every candidate
lies inside that range. -/
theorem C6_candidate_grid (s : ℝ) (hs : 0 < s) :
    (exercisePrices s).length = 1000 ∧
      (∀ i (h : i < (exercisePrices s).length),
        (exercisePrices s)[i] = s * 0.1 + (s * 3 - s * 0.1) * i / 999) ∧
      ∀ c ∈ exercisePrices s, s * 0.1 ≤ c ∧ c ≤ s * 3 := by
  refine ⟨linspace_length _ _ _, fun i h => ?_, fun c hc => exercisePrices_bounds hs.le hc⟩
  simp only [exercisePrices]
  rw [linspace_get]
  norm_num

theorem C6_candidate_grid_witness :
    (0 : ℝ) < 280 ∧ (exercisePrices 280).length = 1000 ∧
      (∀ i (h : i < (exercisePrices 280).length),
        (exercisePrices 280)[i] = 280 * 0.1 + (280 * 3 - 280 * 0.1) * i / 999) ∧
      ∀ c ∈ exercisePrices 280, 280 * 0.1 ≤ c ∧ c ≤ 280 * 3 :=
  ⟨by norm_num, C6_candidate_grid 280 (by norm_num)⟩

/-! ### Characterisation of the sweep loop -/

theorem foldl_sweepStep_best (pf : ℝ → ℝ) :
    ∀ (xs : List ℝ) (st : SweepResult),
      (xs.foldl (sweepStep pf) st).best = xs.foldl (bestStep pf) st.best
  | [], _ => rfl
  | x :: xs, st => by
    rw [List.foldl_cons, List.foldl_cons, foldl_sweepStep_best pf xs]
    rfl

theorem foldl_sweepStep_prices (pf : ℝ → ℝ) :
    ∀ (xs : List ℝ) (st : SweepResult),
      (xs.foldl (sweepStep pf) st).all_exercise_prices =
        st.all_exercise_prices ++ xs.filter (fun x => decide (-1 < pf x))
  | [], st => by simp
  | x :: xs, st => by
    rw [List.foldl_cons, foldl_sweepStep_prices pf xs]
    by_cases h : -1 < pf x
    · simp [sweepStep, h, List.filter_cons]
    · simp [sweepStep, h, List.filter_cons]

theorem foldl_sweepStep_profits (pf : ℝ → ℝ) :
    ∀ (xs : List ℝ) (st : SweepResult),
      (xs.foldl (sweepStep pf) st).all_profits =
        st.all_profits ++
          (xs.filter (fun x => decide (-1 < pf x))).map (fun x => pf x * 100)
  | [], st => by simp
  | x :: xs, st => by
    rw [List.foldl_cons, foldl_sweepStep_profits pf xs]
    by_cases h : -1 < pf x
    · simp [sweepStep, h, List.filter_cons]
    · simp [sweepStep, h, List.filter_cons]

theorem sweep_prices (pf : ℝ → ℝ) (xs : List ℝ) :
    (sweep pf xs).all_exercise_prices = xs.filter (fun x => decide (-1 < pf x)) := by
  rw [sweep, foldl_sweepStep_prices]
  rfl

theorem sweep_profits (pf : ℝ → ℝ) (xs : List ℝ) :
    (sweep pf xs).all_profits =
      (xs.filter (fun x => decide (-1 < pf x))).map (fun x => pf x * 100) := by
  rw [sweep, foldl_sweepStep_profits]
  rfl

theorem bestFold_char (pf : ℝ → ℝ) :
    ∀ (xs : List ℝ) (bx : ℝ),
      ∃ rx, xs.foldl (bestStep pf) (some (bx, pf bx)) = some (rx, pf rx) ∧
        ((rx = bx ∧ ∀ y ∈ xs, pf y ≤ pf bx) ∨
          ∃ pre post, xs = pre ++ rx :: post ∧ pf bx < pf rx ∧
            (∀ y ∈ pre, pf y < pf rx) ∧ ∀ y ∈ post, pf y ≤ pf rx)
  | [], bx => ⟨bx, rfl, Or.inl ⟨rfl, by simp⟩⟩
  | x :: xs, bx => by
    rcases lt_or_le (pf bx) (pf x) with hlt | hle
    · have hstep : (x :: xs).foldl (bestStep pf) (some (bx, pf bx)) =
          xs.foldl (bestStep pf) (some (x, pf x)) := by
        rw [List.foldl_cons]
        simp [bestStep, hlt]
      rcases bestFold_char pf xs x with ⟨rx, hfold, hcase⟩
      refine ⟨rx, by rw [hstep]; exact hfold, Or.inr ?_⟩
      rcases hcase with ⟨rfl, hall⟩ | ⟨pre, post, rfl, hbx, hpre, hpost⟩
      · exact ⟨[], xs, rfl, hlt, by simp, hall⟩
      · refine ⟨x :: pre, post, rfl, lt_trans hlt hbx, ?_, hpost⟩
        intro y hy
        rcases List.mem_cons.mp hy with rfl | hy
        · exact hbx
        · exact hpre y hy
    · have hstep : (x :: xs).foldl (bestStep pf) (some (bx, pf bx)) =
          xs.foldl (bestStep pf) (some (bx, pf bx)) := by
        rw [List.foldl_cons]
        simp [bestStep, not_lt.mpr hle]
      rcases bestFold_char pf xs bx with ⟨rx, hfold, hcase⟩
      refine ⟨rx, by rw [hstep]; exact hfold, ?_⟩
      rcases hcase with ⟨rfl, hall⟩ | ⟨pre, post, rfl, hbx, hpre, hpost⟩
      · refine Or.inl ⟨rfl, ?_⟩
        intro y hy
        rcases List.mem_cons.mp hy with rfl | hy
        · exact hle
        · exact hall y hy
      · refine Or.inr ⟨x :: pre, post, rfl, hbx, ?_, hpost⟩
        intro y hy
        rcases List.mem_cons.mp hy with rfl | hy
        · exact lt_of_le_of_lt hle hbx
        · exact hpre y hy

/-- The best tracked by the sweep is the strict maximum of the profit over
all candidates, with the first-encountered candidate kept on ties: there
is a decomposition of the scan order in which everything before the
winner is strictly below it and everything after it is at most it. -/
theorem sweep_best_char (pf : ℝ → ℝ) (xs : List ℝ) (hxs : xs ≠ []) :
    ∃ bx pre post, (sweep pf xs).best = some (bx, pf bx) ∧
      xs = pre ++ bx :: post ∧
      (∀ y ∈ pre, pf y < pf bx) ∧ ∀ y ∈ post, pf y ≤ pf bx := by
  match xs, hxs with
  | x :: rest, _ =>
    have hb : (sweep pf (x :: rest)).best =
        rest.foldl (bestStep pf) (some (x, pf x)) := by
      rw [sweep, foldl_sweepStep_best, List.foldl_cons]
      rfl
    rcases bestFold_char pf rest x with ⟨rx, hfold, hcase⟩
    rcases hcase with ⟨rfl, hall⟩ | ⟨pre, post, rfl, hbx, hpre, hpost⟩
    · exact ⟨rx, [], rest, by rw [hb, hfold], rfl, by simp, hall⟩
    · refine ⟨rx, x :: pre, post, by rw [hb, hfold], rfl, ?_, hpost⟩
      intro y hy
      rcases List.mem_cons.mp hy with rfl | hy
      · exact hbx
      · exact hpre y hy

/-! ### Claim theorems: selection rule, reported sequence, zero premium -/

/-- C7: the returned `(best_exercise_price, max_profit)` of the optimizer
is the strict maximum of the profit metric over all 1000 evaluated
candidates, and on ties the first-encountered candidate of the
left-to-right scan wins: the scan splits as `pre ++ best :: post` with
every earlier candidate strictly below the winner and every later one at
most equal to it. -/
theorem C7_selection_rule (S r days v m : ℝ) :
    ∃ bx pre post,
      (mainSweep S r days v m).best = some (bx, mainProfit S r days v m bx) ∧
      exercisePrices S = pre ++ bx :: post ∧
      (∀ y ∈ pre, mainProfit S r days v m y < mainProfit S r days v m bx) ∧
      ∀ y ∈ post, mainProfit S r days v m y ≤ mainProfit S r days v m bx := by
  have hne : exercisePrices S ≠ [] := by
    intro h
    have := linspace_length (S * 0.1) (S * 3) 1000
    rw [exercisePrices] at h
    rw [h] at this
    simp at this
  exact sweep_best_char _ _ hne

/-- C8: the reported sequence contains an entry for exactly those
evaluated candidates whose profit ratio exceeds `-1`, in scan order: the
reported strikes are the scan-order filter of the candidates by
`-1 < profit`, and the reported profit values are, pairwise in the same
order, those candidates' profit ratios (scaled by 100 for the
percentage display consumed by the plotting layer). -/
theorem C8_reported_sequence (S r days v m : ℝ) :
    (mainSweep S r days v m).all_exercise_prices =
      (exercisePrices S).filter (fun x => decide (-1 < mainProfit S r days v m x)) ∧
    (mainSweep S r days v m).all_profits =
      ((exercisePrices S).filter (fun x => decide (-1 < mainProfit S r days v m x))).map
        (fun x => mainProfit S r days v m x * 100) :=
  ⟨sweep_prices _ _, sweep_profits _ _⟩

/-- C2: the code does not exclude zero-premium candidates.  Running the
loop body on a synthetic pricing function that is identically zero
(future price 100, call regime, candidates 50 and 90), the zero-premium
candidate 50 is installed as `best_exercise_price` and both zero-premium
candidates appear in the reported sequence; nothing in the sweep removes
them.  (In Python the division `profit /= 0.0` yields `±inf`/`nan`
rather than an exclusion; in the real-number model division by zero
reads as `0`.  Under both readings the candidate is tracked and
reported, contradicting the claimed exclusion.) -/
theorem C2_zero_premium_not_excluded :
    (sweep (profitOf (fun _ => 0) 100 true) [50, 90]).best = some (50, 0) ∧
      (sweep (profitOf (fun _ => 0) 100 true) [50, 90]).all_exercise_prices = [50, 90] := by
  constructor
  · simp [sweep, sweepStep, profitOf]
  · simp [sweep, sweepStep, profitOf]

/-! ### The standard normal density and distribution function -/

theorem normPdf_pos (z : ℝ) : 0 < normPdf z := by
  unfold normPdf
  have h2π : (0 : ℝ) < 2 * π := by positivity
  positivity

theorem integrable_normPdf : Integrable normPdf := by
  have h : normPdf = fun z : ℝ => (Real.sqrt (2 * π))⁻¹ * Real.exp (-(1 / 2 : ℝ) * z ^ 2) := by
    funext z
    unfold normPdf
    ring_nf
  rw [h]
  exact (integrable_exp_neg_mul_sq (by norm_num)).const_mul _

theorem integral_normPdf : ∫ z, normPdf z = 1 := by
  have h : normPdf = fun z : ℝ => (Real.sqrt (2 * π))⁻¹ * Real.exp (-(1 / 2 : ℝ) * z ^ 2) := by
    funext z
    unfold normPdf
    ring_nf
  rw [h]
  rw [MeasureTheory.integral_mul_left, integral_gaussian]
  have hdiv : π / (1 / 2) = 2 * π := by ring
  rw [hdiv]
  have hpos : (0 : ℝ) < Real.sqrt (2 * π) := Real.sqrt_pos.mpr (by positivity)
  exact inv_mul_cancel₀ (ne_of_gt hpos)

theorem integrable_normPdf_sub (a : ℝ) : Integrable fun w => normPdf (w - a) :=
  integrable_normPdf.comp_sub_right a

theorem integral_normPdf_sub (a : ℝ) : ∫ w, normPdf (w - a) = 1 := by
  rw [integral_sub_right_eq_self normPdf a]
  exact integral_normPdf

theorem normPdf_neg (z : ℝ) : normPdf (-z) = normPdf z := by
  unfold normPdf
  rw [neg_sq]

theorem support_normPdf : Function.support normPdf = univ :=
  Set.eq_univ_iff_forall.mpr fun z => Function.mem_support.mpr (ne_of_gt (normPdf_pos z))

theorem normCdf_pos (x : ℝ) : 0 < normCdf x := by
  rw [normCdf,
    setIntegral_pos_iff_support_of_nonneg_ae
      (ae_of_all _ fun z => (normPdf_pos z).le) integrable_normPdf.integrableOn]
  rw [support_normPdf, univ_inter, Real.volume_Iic]
  exact ENNReal.zero_lt_top

theorem setIntegral_normPdf_Ioc_pos {x y : ℝ} (h : x < y) :
    0 < ∫ z in Ioc x y, normPdf z := by
  rw [setIntegral_pos_iff_support_of_nonneg_ae
      (ae_of_all _ fun z => (normPdf_pos z).le) integrable_normPdf.integrableOn]
  rw [support_normPdf, univ_inter, Real.volume_Ioc]
  exact ENNReal.ofReal_pos.mpr (sub_pos.mpr h)

theorem normCdf_split_Ioc {x y : ℝ} (h : x ≤ y) :
    normCdf y = normCdf x + ∫ z in Ioc x y, normPdf z := by
  rw [normCdf, normCdf, ← Set.Iic_union_Ioc_eq_Iic h,
    setIntegral_union (Set.Iic_disjoint_Ioc le_rfl) measurableSet_Ioc
      integrable_normPdf.integrableOn integrable_normPdf.integrableOn]

theorem normCdf_strictMono {x y : ℝ} (h : x < y) : normCdf x < normCdf y := by
  have := setIntegral_normPdf_Ioc_pos h
  have hs := normCdf_split_Ioc h.le
  linarith

theorem normCdf_mono {x y : ℝ} (h : x ≤ y) : normCdf x ≤ normCdf y := by
  rcases eq_or_lt_of_le h with rfl | hlt
  · exact le_refl _
  · exact (normCdf_strictMono hlt).le

theorem normCdf_neg_eq (x : ℝ) : normCdf (-x) = ∫ z in Ioi x, normPdf z := by
  rw [normCdf]
  calc ∫ z in Iic (-x), normPdf z = ∫ z in Iic (-x), normPdf (-z) := by
        refine setIntegral_congr_fun measurableSet_Iic fun z _ => ?_
        rw [normPdf_neg]
      _ = ∫ z in Ioi (- -x), normPdf z := integral_comp_neg_Iic (-x) normPdf
      _ = ∫ z in Ioi x, normPdf z := by rw [neg_neg]

theorem normCdf_add_normCdf_neg (x : ℝ) : normCdf x + normCdf (-x) = 1 := by
  rw [normCdf_neg_eq, normCdf,
    intervalIntegral.integral_Iic_add_Ioi integrable_normPdf.integrableOn
      integrable_normPdf.integrableOn]
  exact integral_normPdf

theorem normCdf_lt_one (x : ℝ) : normCdf x < 1 := by
  have h := normCdf_add_normCdf_neg x
  have := normCdf_pos (-x)
  linarith

theorem normCdf_le_one (x : ℝ) : normCdf x ≤ 1 := (normCdf_lt_one x).le

/-! ### The Black-Scholes kernel -/

theorem setIntegral_Iic_comp_sub (f : ℝ → ℝ) (a c : ℝ) :
    ∫ w in Iic c, f (w - a) = ∫ w in Iic (c - a), f w := by
  have h2 : (Iic c).indicator (fun w => f (w - a)) =
      fun w => (Iic (c - a)).indicator f (w - a) := by
    funext w
    by_cases hw : w ≤ c
    · rw [indicator_of_mem (mem_Iic.mpr hw),
        indicator_of_mem (mem_Iic.mpr (by linarith))]
    · rw [indicator_of_not_mem (fun hh => hw (mem_Iic.mp hh)),
        indicator_of_not_mem (fun hh => hw (by have := mem_Iic.mp hh; linarith))]
  rw [← integral_indicator measurableSet_Iic, h2,
    integral_sub_right_eq_self ((Iic (c - a)).indicator f) a,
    integral_indicator measurableSet_Iic]

theorem setIntegral_normPdf_sub_Iic (a c : ℝ) :
    ∫ w in Iic c, normPdf (w - a) = normCdf (c - a) := by
  rw [setIntegral_Iic_comp_sub normPdf a c, normCdf]

theorem exp_mul_normPdf_sub (a L w : ℝ) :
    Real.exp (-L) * normPdf (w - a) = normPdf w * Real.exp (a * w - a ^ 2 / 2 - L) := by
  unfold normPdf
  rw [mul_left_comm, ← Real.exp_add, mul_assoc, ← Real.exp_add]
  congr 1
  rw [Real.exp_eq_exp]
  ring

theorem bsKernel_eq (a L w : ℝ) :
    bsKernel a L w = normPdf w * (1 - Real.exp (a * w - a ^ 2 / 2 - L)) := by
  rw [bsKernel, exp_mul_normPdf_sub]
  ring

theorem bsKernel_nonneg {a : ℝ} (ha : 0 < a) {L w : ℝ} (hw : w ≤ L / a + a / 2) :
    0 ≤ bsKernel a L w := by
  rw [bsKernel_eq]
  refine mul_nonneg (normPdf_pos w).le ?_
  have hLa : L / a * a = L := div_mul_cancel₀ L (ne_of_gt ha)
  have hq : a * w - a ^ 2 / 2 - L ≤ 0 := by
    nlinarith [mul_le_mul_of_nonneg_right hw ha.le]
  have := Real.exp_le_one_iff.mpr hq
  linarith

theorem bsKernel_pos {a : ℝ} (ha : 0 < a) {L w : ℝ} (hw : w < L / a + a / 2) :
    0 < bsKernel a L w := by
  rw [bsKernel_eq]
  refine mul_pos (normPdf_pos w) ?_
  have hLa : L / a * a = L := div_mul_cancel₀ L (ne_of_gt ha)
  have hq : a * w - a ^ 2 / 2 - L < 0 := by
    nlinarith [mul_lt_mul_of_pos_right hw ha]
  have := Real.exp_lt_one_iff.mpr hq
  linarith

theorem bsKernel_nonpos {a : ℝ} (ha : 0 < a) {L w : ℝ} (hw : L / a + a / 2 ≤ w) :
    bsKernel a L w ≤ 0 := by
  rw [bsKernel_eq]
  refine mul_nonpos_of_nonneg_of_nonpos (normPdf_pos w).le ?_
  have hLa : L / a * a = L := div_mul_cancel₀ L (ne_of_gt ha)
  have hq : 0 ≤ a * w - a ^ 2 / 2 - L := by
    nlinarith [mul_le_mul_of_nonneg_right hw ha.le]
  have := Real.one_le_exp hq
  linarith

theorem bsKernel_mono_L {a L1 L2 : ℝ} (h : L1 ≤ L2) (w : ℝ) :
    bsKernel a L1 w ≤ bsKernel a L2 w := by
  unfold bsKernel
  have hexp : Real.exp (-L2) ≤ Real.exp (-L1) := Real.exp_le_exp.mpr (by linarith)
  have hpdf : 0 ≤ normPdf (w - a) := (normPdf_pos _).le
  nlinarith

theorem bsKernel_sub (a L1 L2 w : ℝ) :
    bsKernel a L1 w - bsKernel a L2 w =
      (Real.exp (-L2) - Real.exp (-L1)) * normPdf (w - a) := by
  unfold bsKernel
  ring

theorem integrable_bsKernel (a L : ℝ) : Integrable (bsKernel a L) := by
  have h : bsKernel a L = fun w => normPdf w - Real.exp (-L) * normPdf (w - a) := rfl
  rw [h]
  exact integrable_normPdf.sub ((integrable_normPdf_sub a).const_mul _)

theorem integral_bsKernel_Iic (a L c : ℝ) :
    ∫ w in Iic c, bsKernel a L w = normCdf c - Real.exp (-L) * normCdf (c - a) := by
  have h : ∀ w, bsKernel a L w = normPdf w - Real.exp (-L) * normPdf (w - a) := fun w => rfl
  rw [show (fun w => bsKernel a L w) = fun w => normPdf w - Real.exp (-L) * normPdf (w - a)
      from funext h]
  rw [MeasureTheory.integral_sub integrable_normPdf.integrableOn
    (((integrable_normPdf_sub a).const_mul _).integrableOn)]
  rw [MeasureTheory.integral_mul_left, setIntegral_normPdf_sub_Iic, normCdf]
  rfl

/-! ### Black-Scholes call premium as an integral of the kernel -/

theorem bsA_pos {v days : ℝ} (hv : 0 < v) (hd : 0 < days) : 0 < bsA v days :=
  mul_pos hv (Real.sqrt_pos.mpr (by positivity))

theorem bs_d1_eq {S X r days v : ℝ} (hv : 0 < v) (hd : 0 < days) :
    (Real.log (S / X) + (r + v ^ 2 / 2) * (days / 365)) / (v * Real.sqrt (days / 365)) =
      bsL S X r days / bsA v days + bsA v days / 2 := by
  have ht : 0 < days / 365 := by positivity
  have hu : 0 < Real.sqrt (days / 365) := Real.sqrt_pos.mpr ht
  have huu : Real.sqrt (days / 365) * Real.sqrt (days / 365) = days / 365 :=
    Real.mul_self_sqrt ht.le
  calc (Real.log (S / X) + (r + v ^ 2 / 2) * (days / 365)) / (v * Real.sqrt (days / 365))
      = (Real.log (S / X) + r * (days / 365)) / (v * Real.sqrt (days / 365)) +
          v ^ 2 / 2 * (days / 365) / (v * Real.sqrt (days / 365)) := by
        rw [← add_div]
        ring_nf
    _ = bsL S X r days / bsA v days + bsA v days / 2 := by
        rw [bsL, bsA]
        congr 1
        rw [← huu]
        field_simp
        have h365 : Real.sqrt 365 * Real.sqrt 365 = 365 :=
          Real.mul_self_sqrt (by norm_num)
        have hdd : Real.sqrt days * Real.sqrt days = days := Real.mul_self_sqrt hd.le
        linear_combination 2 * v ^ 2 * days * h365 - 2 * 365 * v ^ 2 * hdd

theorem bs_d2_eq {S X r days v : ℝ} (hv : 0 < v) (hd : 0 < days) :
    (Real.log (S / X) + (r - v ^ 2 / 2) * (days / 365)) / (v * Real.sqrt (days / 365)) =
      bsL S X r days / bsA v days + bsA v days / 2 - bsA v days := by
  have ht : 0 < days / 365 := by positivity
  have hu : 0 < Real.sqrt (days / 365) := Real.sqrt_pos.mpr ht
  have huu : Real.sqrt (days / 365) * Real.sqrt (days / 365) = days / 365 :=
    Real.mul_self_sqrt ht.le
  calc (Real.log (S / X) + (r - v ^ 2 / 2) * (days / 365)) / (v * Real.sqrt (days / 365))
      = (Real.log (S / X) + r * (days / 365)) / (v * Real.sqrt (days / 365)) -
          v ^ 2 / 2 * (days / 365) / (v * Real.sqrt (days / 365)) := by
        rw [← sub_div]
        ring_nf
    _ = bsL S X r days / bsA v days + bsA v days / 2 - bsA v days := by
        rw [bsL, bsA]
        have h2 : v ^ 2 / 2 * (days / 365) / (v * Real.sqrt (days / 365)) =
            v * Real.sqrt (days / 365) / 2 := by
          rw [← huu]
          field_simp
          have h365 : Real.sqrt 365 * Real.sqrt 365 = 365 :=
            Real.mul_self_sqrt (by norm_num)
          have hdd : Real.sqrt days * Real.sqrt days = days := Real.mul_self_sqrt hd.le
          linear_combination 2 * v ^ 2 * days * h365 - 2 * 365 * v ^ 2 * hdd
        rw [h2]
        ring

theorem bs_discount_eq {S X r days : ℝ} (hS : 0 < S) (hX : 0 < X) :
    X * Real.exp (-r * (days / 365)) = S * Real.exp (-bsL S X r days) := by
  have h1 : Real.exp (-(Real.log (S / X) + r * (days / 365)))
      = X / S * Real.exp (-(r * (days / 365))) := by
    rw [neg_add, Real.exp_add, ← Real.log_inv,
      Real.exp_log (by positivity : (0 : ℝ) < (S / X)⁻¹), inv_div]
  rw [bsL, h1, neg_mul]
  field_simp

theorem black_scholes_call_rep {S X r days v : ℝ}
    (hS : 0 < S) (hX : 0 < X) (hv : 0 < v) (hd : 0 < days) :
    black_scholes S X r days v true =
      S * ∫ w in Iic (bsL S X r days / bsA v days + bsA v days / 2),
        bsKernel (bsA v days) (bsL S X r days) w := by
  rw [integral_bsKernel_Iic]
  show S * normCdf ((Real.log (S / X) + (r + v ^ 2 / 2) * (days / 365)) /
        (v * Real.sqrt (days / 365))) -
      X * Real.exp (-r * (days / 365)) * normCdf ((Real.log (S / X) +
        (r - v ^ 2 / 2) * (days / 365)) / (v * Real.sqrt (days / 365))) = _
  rw [bs_d1_eq hv hd, bs_d2_eq hv hd, bs_discount_eq hS hX]
  ring_nf

/-! ### Monotonicity, positivity and a Lipschitz bound for the kernel integral -/

theorem bsIntegral_mono {a : ℝ} (ha : 0 < a) {L1 L2 : ℝ} (h : L1 ≤ L2) :
    (∫ w in Iic (L1 / a + a / 2), bsKernel a L1 w) ≤
      ∫ w in Iic (L2 / a + a / 2), bsKernel a L2 w := by
  have hD : L1 / a + a / 2 ≤ L2 / a + a / 2 := by gcongr
  have hsplit : ∫ w in Iic (L2 / a + a / 2), bsKernel a L2 w =
      (∫ w in Iic (L1 / a + a / 2), bsKernel a L2 w) +
        ∫ w in Ioc (L1 / a + a / 2) (L2 / a + a / 2), bsKernel a L2 w := by
    rw [← setIntegral_union (Set.Iic_disjoint_Ioc le_rfl) measurableSet_Ioc
      (integrable_bsKernel a L2).integrableOn (integrable_bsKernel a L2).integrableOn,
      Set.Iic_union_Ioc_eq_Iic hD]
  have h1 : (∫ w in Iic (L1 / a + a / 2), bsKernel a L1 w) ≤
      ∫ w in Iic (L1 / a + a / 2), bsKernel a L2 w :=
    setIntegral_mono_on (integrable_bsKernel a L1).integrableOn
      (integrable_bsKernel a L2).integrableOn measurableSet_Iic
      fun w _ => bsKernel_mono_L h w
  have h2 : 0 ≤ ∫ w in Ioc (L1 / a + a / 2) (L2 / a + a / 2), bsKernel a L2 w :=
    setIntegral_nonneg measurableSet_Ioc fun w hw => bsKernel_nonneg ha hw.2
  linarith

theorem bsIntegral_pos {a : ℝ} (ha : 0 < a) (L : ℝ) :
    0 < ∫ w in Iic (L / a + a / 2), bsKernel a L w := by
  rw [setIntegral_pos_iff_support_of_nonneg_ae
    ((ae_restrict_iff' measurableSet_Iic).mpr
      (ae_of_all _ fun w hw => bsKernel_nonneg ha hw))
    (integrable_bsKernel a L).integrableOn]
  have hsub : Iio (L / a + a / 2) ⊆
      Function.support (bsKernel a L) ∩ Iic (L / a + a / 2) := fun w hw =>
    ⟨Function.mem_support.mpr (ne_of_gt (bsKernel_pos ha hw)),
      mem_Iic.mpr (le_of_lt (mem_Iio.mp hw))⟩
  have hmono := measure_mono (μ := volume) hsub
  rw [Real.volume_Iio] at hmono
  exact lt_of_lt_of_le (by simp) hmono

theorem bsIntegral_lipschitz {a : ℝ} (ha : 0 < a) {L1 L2 : ℝ} (h : L2 ≤ L1) :
    (∫ w in Iic (L1 / a + a / 2), bsKernel a L1 w) -
        (∫ w in Iic (L2 / a + a / 2), bsKernel a L2 w) ≤
      Real.exp (-L2) - Real.exp (-L1) := by
  have hD : L2 / a + a / 2 ≤ L1 / a + a / 2 := by gcongr
  have hsplit : ∫ w in Iic (L1 / a + a / 2), bsKernel a L2 w =
      (∫ w in Iic (L2 / a + a / 2), bsKernel a L2 w) +
        ∫ w in Ioc (L2 / a + a / 2) (L1 / a + a / 2), bsKernel a L2 w := by
    rw [← setIntegral_union (Set.Iic_disjoint_Ioc le_rfl) measurableSet_Ioc
      (integrable_bsKernel a L2).integrableOn (integrable_bsKernel a L2).integrableOn,
      Set.Iic_union_Ioc_eq_Iic hD]
  have hK2 : ∫ w in Ioc (L2 / a + a / 2) (L1 / a + a / 2), bsKernel a L2 w ≤ 0 :=
    setIntegral_nonpos measurableSet_Ioc fun w hw => bsKernel_nonpos ha hw.1.le
  have hdiff : (∫ w in Iic (L1 / a + a / 2), bsKernel a L1 w) -
      (∫ w in Iic (L1 / a + a / 2), bsKernel a L2 w) =
      (Real.exp (-L2) - Real.exp (-L1)) * normCdf (L1 / a + a / 2 - a) := by
    rw [← MeasureTheory.integral_sub (integrable_bsKernel a L1).integrableOn
      (integrable_bsKernel a L2).integrableOn]
    rw [show (fun w => bsKernel a L1 w - bsKernel a L2 w) =
        fun w => (Real.exp (-L2) - Real.exp (-L1)) * normPdf (w - a)
      from funext (bsKernel_sub a L1 L2)]
    rw [MeasureTheory.integral_mul_left, setIntegral_normPdf_sub_Iic]
  have hcoef : 0 ≤ Real.exp (-L2) - Real.exp (-L1) := by
    have := Real.exp_le_exp.mpr (neg_le_neg h)
    linarith
  have hbound : (Real.exp (-L2) - Real.exp (-L1)) * normCdf (L1 / a + a / 2 - a) ≤
      Real.exp (-L2) - Real.exp (-L1) :=
    mul_le_of_le_one_right hcoef (normCdf_le_one _)
  linarith

/-! ### Parity, positivity and sign identities for the premium -/

theorem black_scholes_parity (S X r days v : ℝ) :
    black_scholes S X r days v true - black_scholes S X r days v false =
      S - X * Real.exp (-r * (days / 365)) := by
  have h1 := normCdf_add_normCdf_neg
    ((Real.log (S / X) + (r + v ^ 2 / 2) * (days / 365)) / (v * Real.sqrt (days / 365)))
  have h2 := normCdf_add_normCdf_neg
    ((Real.log (S / X) + (r - v ^ 2 / 2) * (days / 365)) / (v * Real.sqrt (days / 365)))
  show S * normCdf ((Real.log (S / X) + (r + v ^ 2 / 2) * (days / 365)) /
        (v * Real.sqrt (days / 365))) -
      X * Real.exp (-r * (days / 365)) * normCdf ((Real.log (S / X) +
        (r - v ^ 2 / 2) * (days / 365)) / (v * Real.sqrt (days / 365))) -
      (X * Real.exp (-r * (days / 365)) * normCdf (-((Real.log (S / X) +
        (r - v ^ 2 / 2) * (days / 365)) / (v * Real.sqrt (days / 365)))) -
        S * normCdf (-((Real.log (S / X) + (r + v ^ 2 / 2) * (days / 365)) /
          (v * Real.sqrt (days / 365))))) =
      S - X * Real.exp (-r * (days / 365))
  linear_combination S * h1 - X * Real.exp (-r * (days / 365)) * h2

theorem black_scholes_call_pos {S X r days v : ℝ}
    (hS : 0 < S) (hX : 0 < X) (hv : 0 < v) (hd : 0 < days) :
    0 < black_scholes S X r days v true := by
  rw [black_scholes_call_rep hS hX hv hd]
  exact mul_pos hS (bsIntegral_pos (bsA_pos hv hd) _)

theorem black_scholes_put_neg_v (s x r days v : ℝ) :
    black_scholes s x r days v false = -black_scholes s x r days (-v) true := by
  show x * Real.exp (-r * (days / 365)) * normCdf (-((Real.log (s / x) +
        (r - v ^ 2 / 2) * (days / 365)) / (v * Real.sqrt (days / 365)))) -
      s * normCdf (-((Real.log (s / x) + (r + v ^ 2 / 2) * (days / 365)) /
        (v * Real.sqrt (days / 365)))) =
    -(s * normCdf ((Real.log (s / x) + (r + (-v) ^ 2 / 2) * (days / 365)) /
        (-v * Real.sqrt (days / 365))) -
      x * Real.exp (-r * (days / 365)) * normCdf ((Real.log (s / x) +
        (r - (-v) ^ 2 / 2) * (days / 365)) / (-v * Real.sqrt (days / 365))))
  simp only [neg_sq, neg_mul, div_neg]
  ring

theorem black_scholes_neg_vol_atm {S days v : ℝ} (hS : 0 < S) (hv : v < 0) (hd : 0 < days) :
    black_scholes S S 0 days v true < 0 := by
  have hu : 0 < Real.sqrt (days / 365) := Real.sqrt_pos.mpr (by positivity)
  have hden : v * Real.sqrt (days / 365) < 0 := mul_neg_of_neg_of_pos hv hu
  have ht : 0 < days / 365 := by positivity
  have hvv : 0 < v * v := mul_pos_of_neg_of_neg hv hv
  show S * normCdf ((Real.log (S / S) + ((0 : ℝ) + v ^ 2 / 2) * (days / 365)) /
        (v * Real.sqrt (days / 365))) -
      S * Real.exp (-(0 : ℝ) * (days / 365)) * normCdf ((Real.log (S / S) +
        ((0 : ℝ) - v ^ 2 / 2) * (days / 365)) / (v * Real.sqrt (days / 365))) < 0
  have hnum : (Real.log (S / S) + ((0 : ℝ) + v ^ 2 / 2) * (days / 365)) -
      (Real.log (S / S) + ((0 : ℝ) - v ^ 2 / 2) * (days / 365)) = v ^ 2 * (days / 365) := by
    ring
  have hd1d2 : (Real.log (S / S) + ((0 : ℝ) + v ^ 2 / 2) * (days / 365)) /
        (v * Real.sqrt (days / 365)) <
      (Real.log (S / S) + ((0 : ℝ) - v ^ 2 / 2) * (days / 365)) /
        (v * Real.sqrt (days / 365)) := by
    have hsub := div_neg_of_pos_of_neg (a := v ^ 2 * (days / 365))
      (by nlinarith) hden
    rw [← hnum] at hsub
    rw [sub_div] at hsub
    linarith
  have hmono := normCdf_strictMono hd1d2
  have hexp : Real.exp (-(0 : ℝ) * (days / 365)) = 1 := by
    rw [neg_zero, zero_mul, Real.exp_zero]
  rw [hexp, mul_one]
  nlinarith

theorem put_ratio_lt_neg_one {fut x p : ℝ} (hfut : 0 < x - fut) (hp : p < 0) :
    ((x - fut) - p) / p < -1 := by
  rw [sub_div, div_self (ne_of_lt hp)]
  have : (x - fut) / p < 0 := div_neg_of_pos_of_neg hfut hp
  linarith

/-! ### Claim theorems: error handling, parity, monotonicity, unreported best -/

/-- C3: the code raises no error for non-positive volatility: `black_scholes`
performs no input validation, and at spot 280, strike 280, rate 0, 180 days
and volatility −1/2 (a precondition violation for which the spec demands a
NumericError) it simply returns a finite — and meaningless, negative —
premium instead of failing. -/
theorem C3_degenerate_no_error : black_scholes 280 280 0 180 (-(1 / 2)) true < 0 :=
  black_scholes_neg_vol_atm (by norm_num) (by norm_num) (by norm_num)

/-- C4: put-call parity.  For positive spot, strike, volatility and days,
the call premium minus the put premium equals `S − X·e^(−r·t)` exactly
(hence in particular within the claimed floating tolerance `1e-6`). -/
theorem C4_put_call_parity (S X r days v : ℝ)
    (hS : 0 < S) (hX : 0 < X) (hv : 0 < v) (hd : 0 < days) :
    black_scholes S X r days v true - black_scholes S X r days v false =
        S - X * Real.exp (-r * (days / 365)) ∧
      |black_scholes S X r days v true - black_scholes S X r days v false -
        (S - X * Real.exp (-r * (days / 365)))| ≤ 1 / 1000000 := by
  refine ⟨black_scholes_parity S X r days v, ?_⟩
  rw [black_scholes_parity S X r days v, sub_self, abs_zero]
  norm_num

theorem C4_put_call_parity_witness :
    (0 : ℝ) < 280 ∧ (0 : ℝ) < 300 ∧ (0 : ℝ) < 2 / 5 ∧ (0 : ℝ) < 180 ∧
      (black_scholes 280 300 (63 / 10000) 180 (2 / 5) true -
          black_scholes 280 300 (63 / 10000) 180 (2 / 5) false =
          280 - 300 * Real.exp (-(63 / 10000) * (180 / 365)) ∧
        |black_scholes 280 300 (63 / 10000) 180 (2 / 5) true -
          black_scholes 280 300 (63 / 10000) 180 (2 / 5) false -
          (280 - 300 * Real.exp (-(63 / 10000) * (180 / 365)))| ≤ 1 / 1000000) :=
  ⟨by norm_num, by norm_num, by norm_num, by norm_num,
    C4_put_call_parity 280 300 (63 / 10000) 180 (2 / 5)
      (by norm_num) (by norm_num) (by norm_num) (by norm_num)⟩

/-- C9: monotonicity in the strike.  For fixed positive spot, volatility
and days (any rate), the call premium is non-increasing and the put
premium non-decreasing as functions of the strike, over positive
strikes. -/
theorem C9_premium_monotonicity (S r days v X1 X2 : ℝ)
    (hS : 0 < S) (hv : 0 < v) (hd : 0 < days) (hX1 : 0 < X1) (hX12 : X1 ≤ X2) :
    black_scholes S X2 r days v true ≤ black_scholes S X1 r days v true ∧
      black_scholes S X1 r days v false ≤ black_scholes S X2 r days v false := by
  have hX2 : 0 < X2 := lt_of_lt_of_le hX1 hX12
  have ha := bsA_pos hv hd
  have hL : bsL S X2 r days ≤ bsL S X1 r days := by
    unfold bsL
    have hdivle : S / X2 ≤ S / X1 := by gcongr
    have hlog : Real.log (S / X2) ≤ Real.log (S / X1) :=
      (Real.log_le_log_iff (by positivity) (by positivity)).mpr hdivle
    linarith
  constructor
  · rw [black_scholes_call_rep hS hX2 hv hd, black_scholes_call_rep hS hX1 hv hd]
    exact mul_le_mul_of_nonneg_left (bsIntegral_mono ha hL) hS.le
  · have p1 := black_scholes_parity S X1 r days v
    have p2 := black_scholes_parity S X2 r days v
    have c1 := @black_scholes_call_rep S X1 r days v hS hX1 hv hd
    have c2 := @black_scholes_call_rep S X2 r days v hS hX2 hv hd
    have e1 := @bs_discount_eq S X1 r days hS hX1
    have e2 := @bs_discount_eq S X2 r days hS hX2
    have hlip := bsIntegral_lipschitz ha hL
    have hscaled := mul_le_mul_of_nonneg_left hlip hS.le
    rw [mul_sub, mul_sub] at hscaled
    linarith

theorem C9_premium_monotonicity_witness :
    (0 : ℝ) < 280 ∧ (0 : ℝ) < 2 / 5 ∧ (0 : ℝ) < 180 ∧ (0 : ℝ) < 250 ∧ (250 : ℝ) ≤ 300 ∧
      (black_scholes 280 300 (63 / 10000) 180 (2 / 5) true ≤
          black_scholes 280 250 (63 / 10000) 180 (2 / 5) true ∧
        black_scholes 280 250 (63 / 10000) 180 (2 / 5) false ≤
          black_scholes 280 300 (63 / 10000) 180 (2 / 5) false) :=
  ⟨by norm_num, by norm_num, by norm_num, by norm_num, by norm_num,
    C9_premium_monotonicity 280 (63 / 10000) 180 (2 / 5) 250 300
      (by norm_num) (by norm_num) (by norm_num) (by norm_num) (by norm_num)⟩

/-- C10: a candidate whose profit ratio is at most −1 is kept out of the
reported sequence but still drives the max-tracking.  At the concrete
input spot 280, rate 0, 365 days, volatility −2/5 and expected movement
−2 (all accepted by the CLI layer, whose volatility flag has no lower
bound), every candidate prices at a negative put premium, so every
profit ratio is below −1: the reported sequence is empty, yet the sweep
still returns a best strike — which therefore appears nowhere in the
reported sequence. -/
theorem C10_best_strike_unreported :
    (mainSweep 280 0 365 (-(2 / 5)) (-2)).all_exercise_prices = [] ∧
      ∃ bx bp, (mainSweep 280 0 365 (-(2 / 5)) (-2)).best = some (bx, bp) ∧
        bx ∉ (mainSweep 280 0 365 (-(2 / 5)) (-2)).all_exercise_prices := by
  have hflag : callFlag (-2 : ℝ) = false := by
    rw [callFlag, if_neg]
    norm_num
  have hratio : ∀ x ∈ exercisePrices (280 : ℝ),
      mainProfit 280 0 365 (-(2 / 5)) (-2) x < -1 := by
    intro x hx
    have hxpos : (0 : ℝ) < x := exercisePrices_pos (by norm_num) hx
    have hcall : 0 < black_scholes 280 x 0 365 (2 / 5) true :=
      black_scholes_call_pos (by norm_num) hxpos (by norm_num) (by norm_num)
    have hp : black_scholes 280 x 0 365 (-(2 / 5)) false < 0 := by
      rw [black_scholes_put_neg_v, neg_neg]
      linarith
    have hpfx : mainProfit 280 0 365 (-(2 / 5)) (-2) x =
        ((x - 280 * (1 + (-2 : ℝ))) - black_scholes 280 x 0 365 (-(2 / 5)) false) /
          black_scholes 280 x 0 365 (-(2 / 5)) false := by
      rw [mainProfit, profitOf, hflag]
      simp
    rw [hpfx]
    exact put_ratio_lt_neg_one (by linarith) hp
  have hstrikes : (mainSweep 280 0 365 (-(2 / 5)) (-2)).all_exercise_prices = [] := by
    rw [mainSweep, sweep_prices]
    apply List.filter_eq_nil_iff.mpr
    intro x hx
    have := hratio x hx
    simp only [decide_eq_true_iff]
    linarith
  refine ⟨hstrikes, ?_⟩
  have hne : exercisePrices (280 : ℝ) ≠ [] := by
    intro h
    have := linspace_length ((280 : ℝ) * 0.1) ((280 : ℝ) * 3) 1000
    rw [exercisePrices] at h
    rw [h] at this
    simp at this
  rcases sweep_best_char (mainProfit 280 0 365 (-(2 / 5)) (-2))
    (exercisePrices 280) hne with ⟨bx, pre, post, hbest, hsplit, hpre, hpost⟩
  refine ⟨bx, mainProfit 280 0 365 (-(2 / 5)) (-2) bx, hbest, ?_⟩
  rw [hstrikes]
  exact List.not_mem_nil bx

end

end Stonks
